import Mathlib

/-!
Verification of the Nadecon browser-extension core (`src/background.js`).

Strings are modelled as `List Char`.  JavaScript's garbage-in behaviours that
matter to the code under verification are modelled explicitly:
truthiness of nullable strings, `parseInt` returning `NaN` (modelled as
`Option`), and `Map` insertion order (modelled as association lists).
Percent-encoding and locale collation are modelled as the identity /
code-point order respectively; no claim below depends on either.
-/

namespace Nadecon

abbrev Str := List Char

/-- JavaScript `String.prototype.includes`: does `hay` contain `needle`? -/
def containsSub (needle : Str) : Str → Bool
  | [] => needle.isEmpty
  | c :: rest => needle.isPrefixOf (c :: rest) || containsSub needle rest

/-- JavaScript `String.prototype.toLowerCase` (ASCII-faithful). -/
def lowerStr (s : Str) : Str := s.map Char.toLower

/-- Truthiness of a nullable JavaScript string: `null` and `""` are falsy. -/
def truthy : Option Str → Bool
  | none => false
  | some [] => false
  | some (_ :: _) => true

/-- Split a string at the first occurrence of `c`; `none` if `c` is absent.
Models `indexOf` + the two `substring`s around it (and is how the WHATWG URL
parser cuts a URL at its first `?` and first `#`). -/
def splitFirst (c : Char) : Str → Option (Str × Str)
  | [] => none
  | x :: xs =>
    if x = c then some ([], xs)
    else
      match splitFirst c xs with
      | none => none
      | some (a, b) => some (x :: a, b)

/-- Split a string at every occurrence of `c` (like `String.prototype.split`). -/
def splitAll (c : Char) : Str → List Str
  | [] => [[]]
  | x :: xs =>
    if x = c then [] :: splitAll c xs
    else
      match splitAll c xs with
      | [] => [[x]]
      | h :: t => (x :: h) :: t

/-- One `key=value` piece of a query string: cut at the first `=`;
a piece with no `=` is a key with empty value (WHATWG semantics). -/
def parsePair (p : Str) : Str × Str :=
  match splitFirst '=' p with
  | none => (p, [])
  | some (k, v) => (k, v)

/-- Parse a query string into its `URLSearchParams` entry list.
Empty pieces (as in `a=1&&b=2`) are skipped, as in WHATWG. -/
def parseQuery (q : Str) : List (Str × Str) :=
  ((splitAll '&' q).filter (fun p => p ≠ [])).map parsePair

/-- A URL string has a scheme when a nonempty prefix is followed by `://`.
(Abstraction of WHATWG parse success; `new URL` throws otherwise.) -/
def hasScheme (b : Str) : Bool :=
  match splitFirst ':' b with
  | none => false
  | some (sch, rest) => !sch.isEmpty && ('/' :: ['/']).isPrefixOf rest

/-- Model of `new URL(s)`: base (scheme/host/path), query entries, fragment.
Fails (`none`, modelling the thrown `TypeError`) when no scheme is present. -/
def parseUrl (s : Str) : Option (Str × List (Str × Str) × Option Str) :=
  let cut := match splitFirst '#' s with
             | none => (s, (none : Option Str))
             | some (p, h) => (p, some h)
  let cut2 := match splitFirst '?' cut.1 with
              | none => (cut.1, ([] : List (Str × Str)))
              | some (b, q) => (b, parseQuery q)
  if hasScheme cut2.1 then some (cut2.1, cut2.2, cut.2) else none

/-- Serialize one query pair as `key=value`. -/
def pairStr (kv : Str × Str) : Str := kv.1 ++ '=' :: kv.2

/-- Serialize a query entry list, `&`-separated. -/
def joinQuery : List (Str × Str) → Str
  | [] => []
  | [kv] => pairStr kv
  | kv :: rest => pairStr kv ++ '&' :: joinQuery rest

/-- Model of `url.toString()` after `url.search` was rebuilt from an entry
list: the `?` appears iff there are entries; the fragment is kept verbatim. -/
def serializeUrl (base : Str) (ps : List (Str × Str)) (hash : Option Str) : Str :=
  base ++ (if ps = [] then [] else '?' :: joinQuery ps) ++
    (match hash with | none => [] | some h => '#' :: h)

/-- Code-point string comparison (model of `localeCompare`'s three-way
result; the code only uses its sign and zero-ness). -/
def strCmp : Str → Str → Ordering
  | [], [] => .eq
  | [], _ :: _ => .lt
  | _ :: _, [] => .gt
  | a :: as, b :: bs =>
    if a.toNat < b.toNat then .lt
    else if b.toNat < a.toNat then .gt
    else strCmp as bs

/-- The comparator of `modifyParams`: compare keys first; if the keys are
identical, compare values (source lines 355–363). -/
def pairLe (p q : Str × Str) : Bool :=
  match strCmp p.1 q.1 with
  | .lt => true
  | .gt => false
  | .eq => strCmp p.2 q.2 ≠ Ordering.gt

/-- `pairLe` as a decidable relation, for use with the stable sort.
JavaScript's `Array.prototype.sort` is stable, so any stable sorting
algorithm with the same comparator computes the same output list. -/
def pairRel (p q : Str × Str) : Prop := pairLe p q = true

instance : DecidableRel pairRel := fun p q => decEq (pairLe p q) true

/-- The three query keys deleted by `modifyParams`. -/
def keptKey (k : Str) : Bool :=
  decide (k ≠ "bytestart".toList) && decide (k ≠ "byteend".toList) &&
    decide (k ≠ "_nc_cat".toList)

/-- `modifyParams` (source lines 333–380): drop `bytestart`, `byteend` and
`_nc_cat` query parameters, sort the remaining entries by key then value,
rebuild the URL; on parse failure return the input unchanged. -/
def modifyParams (s : Str) : Str :=
  match parseUrl s with
  | none => s
  | some (b, ps, h) =>
    serializeUrl b (List.insertionSort pairRel (ps.filter (fun kv => keptKey kv.1))) h

example :
    modifyParams "http://a.com/v?x=1&bytestart=5".toList =
      "http://a.com/v?x=1".toList := by decide

example :
    modifyParams "http://a.com/v?b=2&a=1".toList =
      "http://a.com/v?a=1&b=2".toList := by decide

example : modifyParams "not a url".toList = "not a url".toList := by decide

/-! ## Header probe (`fetchMediaHeaders`, source lines 150–202) -/

/-- Result shape of `fetchMediaHeaders`.  `contentLength` is `none` both for
an absent/empty header and for a `NaN` from `parseInt`; nothing downstream
distinguishes the two falsy values. -/
structure ProbeResult where
  valid : Bool
  contentType : Option Str
  contentDisposition : Option Str
  contentLength : Option Int
deriving DecidableEq

/-- Leading decimal digits of a string, if any. -/
def leadingNat (s : Str) : Option Nat :=
  match s.takeWhile Char.isDigit with
  | [] => none
  | ds => some (ds.foldl (fun a c => a * 10 + (c.toNat - 48)) 0)

/-- JavaScript `parseInt(s, 10)`: skip leading whitespace, optional sign,
then leading digits; `none` models `NaN`. -/
def jsParseInt (s : Str) : Option Int :=
  match s.dropWhile Char.isWhitespace with
  | '-' :: rest => (leadingNat rest).map (fun n => -(n : Int))
  | '+' :: rest => (leadingNat rest).map (fun n => (n : Int))
  | t => (leadingNat t).map (fun n => (n : Int))

/-- The `isMedia` check of `fetchMediaHeaders` (source lines 183–190); a
`null` or empty content type is falsy and yields `false`. -/
def isMediaType : Option Str → Bool
  | none => false
  | some [] => false
  | some s =>
    "video/".toList.isPrefixOf s || "audio/".toList.isPrefixOf s ||
    "image/gif".toList.isPrefixOf s || containsSub "mpegurl".toList s ||
    containsSub "dash+xml".toList s ||
    containsSub "application/octet-stream".toList s

/-- Possible outcomes of the underlying `HEAD` fetch for one URL.  The first
two throw inside the `try` block; `errorType` is a settled response whose
`type` is `'error'`; `respond` carries the raw header values (`none` models
an absent header). -/
inductive FetchOutcome where
  | timeout
  | netError
  | errorType
  | respond (ct cd cl : Option Str)
deriving DecidableEq

/-- The `try`-block body of the probe, before the `catch`: the first two
outcomes are thrown errors, the rest settle. -/
def probeAttempt : FetchOutcome → Except Unit ProbeResult
  | .timeout => .error ()
  | .netError => .error ()
  | .errorType =>
    .ok { valid := false, contentType := none, contentDisposition := none,
          contentLength := none }
  | .respond ct cd cl =>
    .ok { valid := isMediaType ct
          contentType := ct
          contentDisposition := cd
          contentLength :=
            match cl with
            | none => none
            | some [] => none          -- empty header string is falsy
            | some v => jsParseInt v }

/-- The settled value of the probe promise: the `catch` absorbs every thrown
error into the all-`null`, `valid: false` result (source lines 193–197). -/
def probeSettle (o : FetchOutcome) : ProbeResult :=
  match probeAttempt o with
  | .error _ =>
    { valid := false, contentType := none, contentDisposition := none,
      contentLength := none }
  | .ok r => r

/-- The `mediaDetailsCache`: a `Map<url, promise>`, modelled as an insertion
ordered association list from URL to the promise's settled result. -/
abbrev Cache := List (Str × ProbeResult)

/-- `Map.prototype.get`/`has` on the cache. -/
def cacheGet : Cache → Str → Option ProbeResult
  | [], _ => none
  | (k, v) :: rest, u => if k = u then some v else cacheGet rest u

/-- `fetchMediaHeaders(url)` (source lines 155–202) as a state transformer.
`env` fixes the network outcome a probe of each URL would observe during
this process run.  The returned flag records whether an underlying network
probe was issued.  The promise is stored in the cache synchronously, before
any suspension, so every later caller — including one arriving while the
probe is still outstanding — gets the same stored promise and no second
probe. -/
def fetchMediaHeaders (env : Str → FetchOutcome) (st : Cache) (u : Str) :
    ProbeResult × Cache × Bool :=
  match cacheGet st u with
  | some r => (r, st, false)
  | none =>
    let r := probeSettle (env u)
    (r, st ++ [(u, r)], true)

/-! ## Classifier and session registry
(`getMediaDetails` / `addMediaUrl`, source lines 395–463) -/

/-- A registry entry (source line 406).  `validMedia` and `isManifest` store
the truthiness of the corresponding JavaScript values (`null` is falsy). -/
structure MediaItem where
  url : Str
  filename : Str
  validMedia : Bool
  isManifest : Bool
deriving DecidableEq

/-- The manifest test of `getMediaDetails` (source line 404): truthy content
type containing `mpegurl` or `dash+xml`. -/
def manifestCheck : Option Str → Bool
  | none => false
  | some [] => false
  | some s => containsSub "mpegurl".toList s || containsSub "dash+xml".toList s

/-- `getMediaDetails(url)` (source lines 400–407).  The filename deriver is a
parameter: `deriveFilename`'s `Content-Disposition` regex handling is not
needed by any claim, and every theorem below holds for an arbitrary
deriver. -/
def getMediaDetails (deriveF : Str → Option Str → Option Str → Str)
    (env : Str → FetchOutcome) (cache : Cache) (url : Str) :
    MediaItem × Cache :=
  let u := modifyParams url
  let res := fetchMediaHeaders env cache u
  let pr := res.1
  ({ url := u
     filename := deriveF u pr.contentType pr.contentDisposition
     validMedia := pr.valid
     isManifest := manifestCheck pr.contentType }, res.2.1)

/-- One tab's entries: `Map<url, mediaItem>` in insertion order. -/
abbrev TabEntries := List (Str × MediaItem)

/-- `scrapedMediaUrls`: `Map<tabId, Map<url, mediaItem>>`. -/
abbrev Registry := List (Int × TabEntries)

def regGet : Registry → Int → Option TabEntries
  | [], _ => none
  | (k, v) :: rest, t => if k = t then some v else regGet rest t

/-- `Map.prototype.set` on the outer registry map: overwrite in place if the
tab is present, else append (insertion order). -/
def regSet : Registry → Int → TabEntries → Registry
  | [], t, es => [(t, es)]
  | (k, v) :: rest, t, es =>
    if k = t then (t, es) :: rest else (k, v) :: regSet rest t es

/-- `Map.prototype.has` on one tab's entries. -/
def entriesHas (es : TabEntries) (u : Str) : Bool :=
  match es with
  | [] => false
  | (k, _) :: rest => k = u || entriesHas rest u

/-- `addMediaUrl(tabId, url, source)` (source lines 417–463) acting on the
probe cache and the registry.  Messaging side effects are external and carry
no state relevant to the claims. -/
def addMediaUrl (deriveF : Str → Option Str → Option Str → Str)
    (env : Str → FetchOutcome) (st : Cache × Registry) (tabId : Int)
    (url : Str) : Cache × Registry :=
  let gd := getMediaDetails deriveF env st.1 url
  let item := gd.1
  let cache := gd.2
  if !item.validMedia then (cache, st.2)
  else
    let entries := (regGet st.2 tabId).getD []
    if entriesHas entries item.url then (cache, st.2)
    else (cache, regSet st.2 tabId (entries ++ [(item.url, item)]))

/-! ## Filename sanitizer (`sanitizeFilenameCharacters`, source lines 209–246) -/

/-- Index of the last occurrence of `c`, or `none` (JS `lastIndexOf` = -1). -/
def lastIdx (c : Char) : Str → Option Nat
  | [] => none
  | x :: xs =>
    match lastIdx c xs with
    | some i => some (i + 1)
    | none => if x = c then some 0 else none

/-- The character class `[/?%*:|"<>\\/]` replaced by `_` (source line 219). -/
def unsafeChar (c : Char) : Bool :=
  c = '/' || c = '?' || c = '%' || c = '*' || c = ':' || c = '|' ||
  c = '"' || c = '<' || c = '>' || c = '\\'

def replaceUnsafe (s : Str) : Str :=
  s.map (fun c => if unsafeChar c then '_' else c)

/-- `namePart.replace(/^\.+|\.+$/g, '').trim()` (source line 220): strip
leading and trailing dots, then leading and trailing whitespace. -/
def trimNamePart (s : Str) : Str :=
  let d := ((s.dropWhile (fun c => c = '.')).reverse.dropWhile
      (fun c => c = '.')).reverse
  ((d.dropWhile Char.isWhitespace).reverse.dropWhile Char.isWhitespace).reverse

/-- `sanitizeFilenameCharacters(filename)` (source lines 209–246). -/
def sanitizeFilenameCharacters (filename : Str) : Str :=
  let split :=
    match lastIdx '.' filename with
    | some i => if 0 < i then (filename.take i, filename.drop i)
                else (filename, ([] : Str))
    | none => (filename, ([] : Str))
  let namePart := trimNamePart (replaceUnsafe split.1)
  let extPart := split.2
  let cleaned := namePart ++ extPart
  let maxLen := 200
  let truncated :=
    if maxLen < cleaned.length then
      if (match lastIdx '.' filename with
          | some i => decide (0 < i)
          | none => false) then
        let avail := maxLen - extPart.length
        if 0 < avail then namePart.take avail ++ extPart
        else extPart.take maxLen
      else cleaned.take maxLen
    else cleaned
  if truncated = [] then "downloaded_file".toList else truncated

/-! ## Liveness cache (`isLocalhostAlive`, source lines 10–14 and 91–121) -/

/-- The mutable fields of `localhostStatusCache`; `checkInterval` is `const`
and never reassigned, so it is modelled as the constant below. -/
structure LivenessCache where
  isAlive : Bool
  lastChecked : Int
deriving DecidableEq

def checkInterval : Int := 5000

/-- Outcome of one liveness `HEAD` fetch: a thrown error (network failure or
the 1 s abort), or a settled response with its `ok` and `type === 'opaque'`
flags. -/
inductive LiveOutcome where
  | throws
  | respond (respOk typeOpq : Bool)
deriving DecidableEq

/-- `isLocalhostAlive(forceCheck)` (source lines 91–121): result, new cache
state, and whether a fresh probe was performed. -/
def isLocalhostAlive (o : LiveOutcome) (now : Int) (forceCheck : Bool)
    (st : LivenessCache) : Bool × LivenessCache × Bool :=
  if !forceCheck && now - st.lastChecked < checkInterval then
    (st.isAlive, st, false)
  else
    match o with
    | .respond respOk typeOpq =>
      let alive := respOk || typeOpq
      (alive, { isAlive := alive, lastChecked := now }, true)
    | .throws => (false, { isAlive := false, lastChecked := now }, true)

/-- The `portChanged` message handler's effect on the liveness cache
(source line 697): `lastChecked = 0` so the next check is fresh. -/
def portChangedCache (st : LivenessCache) : LivenessCache :=
  { st with lastChecked := 0 }

/-! ## Download router (`onHeadersReceived` listener, source lines 577–649) -/

/-- The resource types of the intercepted response.  The listener's filter
and its own guard only admit the first three; `otherResource` stands for any
remaining type reaching the guard. -/
inductive ResourceType where
  | mainFrame
  | subFrame
  | otherType
  | otherResource
deriving DecidableEq

/-- A response header as seen by the listener. -/
structure Header where
  name : Str
  value : Str
deriving DecidableEq

/-- The header scan loop (source lines 593–606): accumulates the forced
`isDownload` flag (any `Content-Disposition` containing `attachment`), and
the last seen `Content-Disposition`, `Content-Type`, `Content-Length`. -/
def scanHeaders (hs : List Header) :
    Bool × Option Str × Option Str × Option Int :=
  hs.foldl
    (fun acc h =>
      let n := lowerStr h.name
      if n = "content-disposition".toList then
        (acc.1 || containsSub "attachment".toList (lowerStr h.value),
          some h.value, acc.2.2.1, acc.2.2.2)
      else if n = "content-type".toList then
        (acc.1, acc.2.1, some h.value, acc.2.2.2)
      else if n = "content-length".toList then
        (acc.1, acc.2.1, acc.2.2.1, jsParseInt h.value)
      else acc)
    (false, none, none, none)

/-- The downloadable content-type list (source lines 611–616). -/
def downloadableContentTypes : List Str :=
  ["application/octet-stream".toList, "application/zip".toList,
   "application/x-rar-compressed".toList, "application/x-tar".toList,
   "application/gzip".toList, "application/pdf".toList]

/-- `!contentDisposition || !contentDisposition.toLowerCase().includes('inline')`
(source lines 619 and 626). -/
def noInline (cd : Option Str) : Bool :=
  !truthy cd || !containsSub "inline".toList (lowerStr (cd.getD []))

/-- The `cancel` decision of the `onHeadersReceived` listener
(source lines 577–649), transcribed branch for branch. -/
def routerCancel (ty : ResourceType) (hs : List Header) : Bool :=
  if ty = .otherResource then false
  else
    let scanned := scanHeaders hs
    let att := scanned.1
    let cd := scanned.2.1
    let ct := scanned.2.2.1
    if att then true
    else if truthy ct then
      let cts := ct.getD []
      if downloadableContentTypes.contains (lowerStr cts) then noInline cd
      else if "video/".toList.isPrefixOf cts || "audio/".toList.isPrefixOf cts then
        decide (ty = .mainFrame) && noInline cd
      else if containsSub "mpegurl".toList cts || containsSub "dash+xml".toList cts then
        true
      else false
    else false

/-! ## Process runs: operation traces over the caches and the registry -/

/-- Events touching the probe cache during a process run: a call to
`fetchMediaHeaders`, or the `mediaDetailsCache.clear()` executed by the
`clearUrls` message handler when no `tabId` is supplied (source line 717). -/
inductive CacheOp where
  | fetchOp (u : Str)
  | clearOp
deriving DecidableEq

def cacheStep (env : Str → FetchOutcome) (st : Cache) : CacheOp → Cache
  | .fetchOp u => (fetchMediaHeaders env st u).2.1
  | .clearOp => []

def runCacheOps (env : Str → FetchOutcome) (st : Cache)
    (ops : List CacheOp) : Cache :=
  List.foldl (cacheStep env) st ops

/-- Number of underlying network probes issued for `u` along a trace. -/
def probesFor (env : Str → FetchOutcome) (st : Cache) (u : Str) :
    List CacheOp → Nat
  | [] => 0
  | op :: rest =>
    (match op with
     | .fetchOp v =>
       if v = u ∧ (fetchMediaHeaders env st v).2.2 = true then 1 else 0
     | .clearOp => 0) + probesFor env (cacheStep env st op) u rest

/-- The `ProbeResult`s returned to the callers of `fetchMediaHeaders u`
along a trace. -/
def resultsFor (env : Str → FetchOutcome) (st : Cache) (u : Str) :
    List CacheOp → List ProbeResult
  | [] => []
  | op :: rest =>
    (match op with
     | .fetchOp v => if v = u then [(fetchMediaHeaders env st v).1] else []
     | .clearOp => []) ++ resultsFor env (cacheStep env st op) u rest

def hasClear : List CacheOp → Bool
  | [] => false
  | .clearOp :: _ => true
  | .fetchOp _ :: rest => hasClear rest

/-- Events touching the session registry during a process run: an
`addMediaUrl` call, the per-tab purge (a `clearUrls` message with a `tabId`,
`tabs.onRemoved`, or a navigation in `tabs.onUpdated`), and the global clear
(`clearUrls` without a `tabId`, which also clears the probe cache). -/
inductive RegOp where
  | addOp (tab : Int) (url : Str)
  | clearTabOp (tab : Int)
  | clearAllOp
deriving DecidableEq

/-- `Map.prototype.delete` on the registry. -/
def regDelete : Registry → Int → Registry
  | [], _ => []
  | (k, v) :: rest, t => if k = t then rest else (k, v) :: regDelete rest t

def regStep (deriveF : Str → Option Str → Option Str → Str)
    (env : Str → FetchOutcome) (st : Cache × Registry) :
    RegOp → Cache × Registry
  | .addOp t u => addMediaUrl deriveF env st t u
  | .clearTabOp t => (st.1, regDelete st.2 t)
  | .clearAllOp => ([], [])

def runRegOps (deriveF : Str → Option Str → Option Str → Str)
    (env : Str → FetchOutcome) (st : Cache × Registry)
    (ops : List RegOp) : Cache × Registry :=
  List.foldl (regStep deriveF env) st ops

example :
    sanitizeFilenameCharacters "a:b*c.mp4".toList = "a_b_c.mp4".toList := by
  decide

example :
    sanitizeFilenameCharacters "".toList = "downloaded_file".toList := by
  decide

example : sanitizeFilenameCharacters "...".toList = ".".toList := by decide

/-! ## Claim C7: probe failures resolve to the negative result -/

/-- C7: when the header probe times out, fails with a network error, or
yields an error-type response, it resolves to
`{valid: false, contentType: null, contentDisposition: null,
contentLength: null}`; thrown errors are absorbed by the `catch` (the
settled value is total over all outcomes) and never reach the caller. -/
theorem probe_failure_resolves_negative (o : FetchOutcome)
    (h : o = .timeout ∨ o = .netError ∨ o = .errorType) :
    probeSettle o =
      { valid := false, contentType := none, contentDisposition := none,
        contentLength := none } := by
  rcases h with h | h | h <;> subst h <;> rfl

theorem probe_failure_resolves_negative_witness :
    probeSettle .timeout =
      { valid := false, contentType := none, contentDisposition := none,
        contentLength := none } :=
  probe_failure_resolves_negative .timeout (Or.inl rfl)

/-! ## Claim C9: liveness cache TTL, forced checks, port change -/

/-- C9: an unforced call within 5 s of the last check returns the cached
value without probing and leaves the cache unchanged; otherwise a fresh
probe runs and the cache is updated whatever the outcome (a thrown failure
records `isAlive = false`, a settled response records `ok || opaque-type`);
and after a port change even an unforced call probes afresh (Date.now() is
milliseconds since the epoch, hence at least 5000). -/
theorem liveness_cache_contract (o : LiveOutcome) (now : Int)
    (force : Bool) (st : LivenessCache) :
    (force = false → now - st.lastChecked < checkInterval →
      isLocalhostAlive o now force st = (st.isAlive, st, false)) ∧
    (force = true ∨ checkInterval ≤ now - st.lastChecked →
      (isLocalhostAlive o now force st).2.2 = true ∧
      (isLocalhostAlive o now force st).2.1.lastChecked = now ∧
      (o = .throws → (isLocalhostAlive o now force st).1 = false ∧
        (isLocalhostAlive o now force st).2.1.isAlive = false) ∧
      (∀ rOk typeOpq, o = .respond rOk typeOpq →
        (isLocalhostAlive o now force st).2.1.isAlive = (rOk || typeOpq))) ∧
    (5000 ≤ now →
      (isLocalhostAlive o now false (portChangedCache st)).2.2 = true) := by
  refine ⟨?_, ?_, ?_⟩
  · intro hf hlt
    subst hf
    simp [isLocalhostAlive, hlt]
  · intro hfresh
    have hcond : (!force && decide (now - st.lastChecked < checkInterval)) = false := by
      rcases hfresh with hf | hle
      · subst hf; rfl
      · simp [checkInterval] at hle ⊢
        omega
    cases o with
    | throws =>
      simp [isLocalhostAlive, hcond]
    | respond rOk typeOpq =>
      refine ⟨?_, ?_, ?_, ?_⟩ <;> simp [isLocalhostAlive, hcond]
  · intro hnow
    have hcond : ¬ (now - (portChangedCache st).lastChecked < checkInterval) := by
      simp [portChangedCache, checkInterval]
      omega
    cases o <;> simp [isLocalhostAlive, hcond]

theorem liveness_cache_contract_witness :
    isLocalhostAlive .throws 10000 false ⟨true, 8000⟩ =
      (true, ⟨true, 8000⟩, false) ∧
    (isLocalhostAlive .throws 10000 true ⟨true, 8000⟩).2.1.isAlive = false ∧
    (isLocalhostAlive .throws 10000 false
      (portChangedCache ⟨true, 8000⟩)).2.2 = true := by
  refine ⟨?_, ?_, ?_⟩
  · exact (liveness_cache_contract .throws 10000 false ⟨true, 8000⟩).1 rfl
      (by decide)
  · exact (((liveness_cache_contract .throws 10000 true
      ⟨true, 8000⟩).2.1 (Or.inl rfl)).2.2.1 rfl).2
  · exact (liveness_cache_contract .throws 10000 false
      ⟨true, 8000⟩).2.2 (by decide)

/-! ## Claim C8: sanitizer behaviour on length-250 `.mp4` names -/

lemma lastIdx_append (c : Char) (a b : Str) :
    lastIdx c (a ++ b) =
      match lastIdx c b with
      | some j => some (a.length + j)
      | none => lastIdx c a := by
  induction a with
  | nil => cases h : lastIdx c b <;> simp [h, lastIdx]
  | cons x a ih =>
    cases h : lastIdx c b with
    | none => simp [lastIdx, ih, h]
    | some j =>
      simp [lastIdx, ih, h]
      omega

set_option maxRecDepth 8000 in
/-- C8 counterexample: a length-250 filename whose extension is `.mp4` (246
dots followed by `.mp4`) sanitizes to `.mp4` — 4 characters, not 200: the
dot-stripping of the name part runs before truncation, so the sanitized
result can be far shorter than the 200-character maximum. -/
theorem sanitize_250_counterexample :
    (List.replicate 246 '.' ++ ".mp4".toList).length = 250 ∧
    ".mp4".toList.isSuffixOf (List.replicate 246 '.' ++ ".mp4".toList) = true ∧
    sanitizeFilenameCharacters (List.replicate 246 '.' ++ ".mp4".toList) =
      ".mp4".toList := by
  refine ⟨by simp, ?_, ?_⟩
  · rw [List.isSuffixOf_iff_suffix]
    exact List.suffix_append _ _
  · decide

set_option maxRecDepth 8000 in
/-- C8 amended: a length-250 filename with extension `.mp4` sanitizes to
exactly 200 characters ending in `.mp4`, provided the cleaning pass (strip
leading/trailing dots, then surrounding whitespace) leaves the
character-replaced name part unchanged — i.e. the name part does not begin
or end with dots or whitespace.  The general clauses of the claim
(path-unsafe characters replaced in the name portion only, truncation
preserving the extension, placeholder on empty) are the transcription
`sanitizeFilenameCharacters` itself. -/
theorem sanitize_250_mp4 (s : Str)
    (h1 : s.length = 250) (h2 : s.drop 246 = ".mp4".toList)
    (h3 : trimNamePart (replaceUnsafe (s.take 246)) = replaceUnsafe (s.take 246)) :
    (sanitizeFilenameCharacters s).length = 200 ∧
    ".mp4".toList.isSuffixOf (sanitizeFilenameCharacters s) = true := by
  have htake : (s.take 246).length = 246 := by
    rw [List.length_take]; omega
  have hname : (replaceUnsafe (s.take 246)).length = 246 := by
    rw [replaceUnsafe, List.length_map, htake]
  have hext : (s.drop 246).length = 4 := by rw [h2]; rfl
  have hm : lastIdx '.' (".mp4".toList) = some 0 := by decide
  have hlast : lastIdx '.' s = some 246 := by
    have h' : lastIdx '.' (s.take 246 ++ s.drop 246) = some 246 := by
      rw [lastIdx_append, h2, hm, htake]
    rwa [List.take_append_drop] at h'
  have hsan : sanitizeFilenameCharacters s =
      (replaceUnsafe (s.take 246)).take 196 ++ s.drop 246 := by
    unfold sanitizeFilenameCharacters
    rw [hlast]
    norm_num
    rw [h3]
    simp only [List.length_append, hname, hext]
    rw [h2, h1]
    norm_num
    intro h4 h5
    exact absurd h5 (by simp)
  constructor
  · rw [hsan, List.length_append, List.length_take, hname, hext]
    omega
  · rw [hsan, List.isSuffixOf_iff_suffix, h2]
    exact List.suffix_append _ _

set_option maxRecDepth 8000 in
theorem sanitize_250_mp4_witness :
    ((sanitizeFilenameCharacters
        (List.replicate 246 'a' ++ ".mp4".toList)).length = 200 ∧
     ".mp4".toList.isSuffixOf
       (sanitizeFilenameCharacters
         (List.replicate 246 'a' ++ ".mp4".toList)) = true) :=
  sanitize_250_mp4 (List.replicate 246 'a' ++ ".mp4".toList)
    (by simp) (by decide) (by decide)

/-! ## Claim C3: the download router's cancel decision -/

/-- The claim's stated precedence, read literally as a guard chain: each
`else` applies when no earlier rule *forced* the download.  (Differs from
the code: here a video/audio response that fails the main-frame/no-inline
test still reaches the manifest rule.) -/
def claimRouterCancel (ty : ResourceType) (hs : List Header) : Bool :=
  let scanned := scanHeaders hs
  let att := scanned.1
  let cd := scanned.2.1
  let ct := scanned.2.2.1
  let cts := ct.getD []
  att ||
  (truthy ct && downloadableContentTypes.contains (lowerStr cts) && noInline cd) ||
  (truthy ct && ("video/".toList.isPrefixOf cts || "audio/".toList.isPrefixOf cts) &&
    decide (ty = ResourceType.mainFrame) && noInline cd) ||
  (truthy ct &&
    (containsSub "mpegurl".toList cts || containsSub "dash+xml".toList cts))

/-- The amended precedence: the three content-type rules are exclusive on
the content-type's category, so a video/audio content type never reaches
the manifest rule, and a downloadable-listed one never reaches either later
rule. -/
def amendedRouterCancel (ty : ResourceType) (hs : List Header) : Bool :=
  let scanned := scanHeaders hs
  let att := scanned.1
  let cd := scanned.2.1
  let ct := scanned.2.2.1
  let cts := ct.getD []
  let dl := downloadableContentTypes.contains (lowerStr cts)
  let av := "video/".toList.isPrefixOf cts || "audio/".toList.isPrefixOf cts
  let man := containsSub "mpegurl".toList cts || containsSub "dash+xml".toList cts
  att ||
  (truthy ct && dl && noInline cd) ||
  (truthy ct && !dl && av && decide (ty = ResourceType.mainFrame) && noInline cd) ||
  (truthy ct && !dl && !av && man)

lemma routerChainEqFlat (att tr dl av mf ni man : Bool) :
    (if att then true
     else if tr then
       (if dl then ni else if av then mf && ni else if man then true else false)
     else false) =
    (att || (tr && dl && ni) || (tr && !dl && av && mf && ni) ||
      (tr && !dl && !av && man)) := by
  revert att tr dl av mf ni man
  decide

/-- C3 counterexample: a `sub_frame` response with
`Content-Type: audio/mpegurl` (an HLS manifest type).  The claim's
precedence forces `cancel: true` through the manifest rule; the listener
returns `cancel: false`, because the `else if` chain commits to the
video/audio branch and never reaches the manifest test. -/
theorem router_cancel_counterexample :
    routerCancel ResourceType.subFrame
      [⟨"Content-Type".toList, "audio/mpegurl".toList⟩] = false ∧
    claimRouterCancel ResourceType.subFrame
      [⟨"Content-Type".toList, "audio/mpegurl".toList⟩] = true := by
  constructor <;> decide

/-- C3 amended: for the three intercepted resource types the router cancels
exactly according to the claim's precedence with the content-type rules
made exclusive by category: `attachment` disposition; else a
downloadable-listed type without `inline`; else a video/audio type in
`main_frame` context without `inline`; else a manifest type that is neither
downloadable-listed nor video/audio. -/
theorem router_cancel_decision (ty : ResourceType) (hs : List Header)
    (hty : ty ≠ ResourceType.otherResource) :
    routerCancel ty hs = amendedRouterCancel ty hs := by
  cases ty with
  | otherResource => exact absurd rfl hty
  | mainFrame =>
    simp only [routerCancel, amendedRouterCancel, reduceCtorEq, if_false]
    exact routerChainEqFlat _ _ _ _ _ _ _
  | subFrame =>
    simp only [routerCancel, amendedRouterCancel, reduceCtorEq, if_false]
    exact routerChainEqFlat _ _ _ _ _ _ _
  | otherType =>
    simp only [routerCancel, amendedRouterCancel, reduceCtorEq, if_false]
    exact routerChainEqFlat _ _ _ _ _ _ _

theorem router_cancel_decision_witness :
    routerCancel ResourceType.mainFrame
      [⟨"Content-Disposition".toList, "attachment".toList⟩] =
    amendedRouterCancel ResourceType.mainFrame
      [⟨"Content-Disposition".toList, "attachment".toList⟩] :=
  router_cancel_decision ResourceType.mainFrame _ (by decide)

/-! ## Claim C1: small video/audio responses and the registry -/

/-- A concrete filename deriver for closed evaluations (the registry logic
is independent of the derived filename). -/
def cexDeriver : Str → Option Str → Option Str → Str := fun u _ _ => u

/-- A network environment answering every probe with
`Content-Type: video/mp4`, no disposition, `Content-Length: 100000`. -/
def fragEnv : Str → FetchOutcome := fun _ =>
  .respond (some "video/mp4".toList) none (some "100000".toList)

/-- C1 counterexample: a `video/mp4` probe with known `Content-Length`
100000 (below 2 MiB) and no manifest signature.  `getMediaDetails` has no
fragment classification at all — the item comes back `validMedia = true`,
`isManifest = false` and `addMediaUrl` **does** insert it into the session
registry, contradicting the claimed discard. -/
theorem small_fragment_inserted_counterexample :
    (fetchMediaHeaders fragEnv [] "http://example.com/v.mp4".toList).1.contentLength =
      some 100000 ∧ (100000 : Int) < 2097152 ∧
    (getMediaDetails cexDeriver fragEnv []
      "http://example.com/v.mp4".toList).1.validMedia = true ∧
    (getMediaDetails cexDeriver fragEnv []
      "http://example.com/v.mp4".toList).1.isManifest = false ∧
    (addMediaUrl cexDeriver fragEnv ([], []) 1
      "http://example.com/v.mp4".toList).2 =
      [(1, [("http://example.com/v.mp4".toList,
        { url := "http://example.com/v.mp4".toList
          filename := "http://example.com/v.mp4".toList
          validMedia := true
          isManifest := false })])] := by
  refine ⟨by decide, by decide, by decide, by decide, by decide⟩

/-- C1 amended: a probe answering `video/*` or `audio/*` with a known
`Content-Length` below 2 MiB and no manifest signature yields
`validMedia = true`, `isManifest = false`, and the item **is** inserted
into the session registry when its canonical URL is new (the code has no
`isFragment` classification; `contentLength` is ignored entirely). -/
theorem small_media_accepted (deriveF : Str → Option Str → Option Str → Str)
    (env : Str → FetchOutcome) (tab : Int) (url : Str) (ct cl : Str)
    (cd : Option Str) (n : Int)
    (henv : env (modifyParams url) = .respond (some ct) cd (some cl))
    (hav : "video/".toList.isPrefixOf ct = true ∨
      "audio/".toList.isPrefixOf ct = true)
    (hm1 : containsSub "mpegurl".toList ct = false)
    (hm2 : containsSub "dash+xml".toList ct = false)
    (hcl : cl ≠ []) (hlen : jsParseInt cl = some n) (hlen2 : n < 2097152) :
    (getMediaDetails deriveF env [] url).1.validMedia = true ∧
    (getMediaDetails deriveF env [] url).1.isManifest = false ∧
    (fetchMediaHeaders env [] (modifyParams url)).1.contentLength = some n ∧
    (addMediaUrl deriveF env ([], []) tab url).2 =
      [(tab, [((getMediaDetails deriveF env [] url).1.url,
              (getMediaDetails deriveF env [] url).1)])] := by
  have hct : ct ≠ [] := by
    rcases hav with h | h <;> intro hc <;> subst hc <;> simp at h
  have hmedia : isMediaType (some ct) = true := by
    cases ct with
    | nil => exact absurd rfl hct
    | cons c cs =>
      rcases hav with h | h <;>
        simp only [isMediaType, h, Bool.or_true, Bool.true_or]
  have hmanifest : manifestCheck (some ct) = false := by
    cases ct with
    | nil => rfl
    | cons c cs => simp only [manifestCheck, hm1, hm2, Bool.or_false]
  have hsettle : probeSettle (env (modifyParams url)) =
      { valid := true, contentType := some ct, contentDisposition := cd,
        contentLength := some n } := by
    rw [henv]
    cases cl with
    | nil => exact absurd rfl hcl
    | cons c cs =>
      simp [probeSettle, probeAttempt, hmedia]
      exact hlen
  have hfetch : fetchMediaHeaders env [] (modifyParams url) =
      ({ valid := true, contentType := some ct, contentDisposition := cd,
         contentLength := some n },
       [(modifyParams url,
         { valid := true, contentType := some ct, contentDisposition := cd,
           contentLength := some n })], true) := by
    simp [fetchMediaHeaders, cacheGet, hsettle]
  have hgd : getMediaDetails deriveF env [] url =
      ({ url := modifyParams url
         filename := deriveF (modifyParams url) (some ct) cd
         validMedia := true
         isManifest := false },
       [(modifyParams url,
         { valid := true, contentType := some ct, contentDisposition := cd,
           contentLength := some n })]) := by
    simp [getMediaDetails, hfetch, hmanifest]
  refine ⟨by rw [hgd], by rw [hgd], by rw [hfetch], ?_⟩
  rw [addMediaUrl, hgd]
  simp [regGet, entriesHas, regSet]

theorem small_media_accepted_witness :
    (addMediaUrl cexDeriver fragEnv ([], []) 2
      "http://example.com/w.mp4".toList).2 =
      [(2, [((getMediaDetails cexDeriver fragEnv []
               "http://example.com/w.mp4".toList).1.url,
             (getMediaDetails cexDeriver fragEnv []
               "http://example.com/w.mp4".toList).1)])] :=
  (small_media_accepted cexDeriver fragEnv 2 "http://example.com/w.mp4".toList
    "video/mp4".toList "100000".toList none 100000 rfl
    (Or.inl (by decide)) (by decide) (by decide) (by decide) (by decide)
    (by decide)).2.2.2

/-! ## Claim C6: idempotence of registry insertion -/

lemma cacheGet_append (st : Cache) (kv : Str × ProbeResult) (u : Str) :
    cacheGet (st ++ [kv]) u =
      match cacheGet st u with
      | some r => some r
      | none => if kv.1 = u then some kv.2 else none := by
  induction st with
  | nil => simp [cacheGet]
  | cons p rest ih =>
    obtain ⟨k, v⟩ := p
    by_cases h : k = u <;> simp [cacheGet, h, ih]

/-- A second `fetchMediaHeaders` call for the same URL hits the cache:
same result, cache unchanged, no probe. -/
lemma fetchMediaHeaders_stable (env : Str → FetchOutcome) (st : Cache)
    (u : Str) :
    fetchMediaHeaders env (fetchMediaHeaders env st u).2.1 u =
      ((fetchMediaHeaders env st u).1,
       (fetchMediaHeaders env st u).2.1, false) := by
  unfold fetchMediaHeaders
  cases h : cacheGet st u with
  | some r => simp [h]
  | none => simp [h, cacheGet_append]

lemma getMediaDetails_stable (deriveF : Str → Option Str → Option Str → Str)
    (env : Str → FetchOutcome) (cache : Cache) (url : Str) :
    getMediaDetails deriveF env
        (getMediaDetails deriveF env cache url).2 url =
      getMediaDetails deriveF env cache url := by
  unfold getMediaDetails
  have h := fetchMediaHeaders_stable env cache (modifyParams url)
  simp only [h]

lemma regGet_regSet_self (reg : Registry) (t : Int) (es : TabEntries) :
    regGet (regSet reg t es) t = some es := by
  induction reg with
  | nil => simp [regSet, regGet]
  | cons p rest ih =>
    obtain ⟨k, v⟩ := p
    by_cases h : k = t <;> simp [regSet, regGet, h, ih]

lemma entriesHas_append_self (es : TabEntries) (u : Str) (item : MediaItem) :
    entriesHas (es ++ [(u, item)]) u = true := by
  induction es with
  | nil => simp [entriesHas]
  | cons p rest ih =>
    obtain ⟨k, v⟩ := p
    by_cases h : k = u <;> simp [entriesHas, h, ih]

/-- Number of entries a session holds in the registry. -/
def regSize (reg : Registry) (tab : Int) : Nat :=
  ((regGet reg tab).getD []).length

/-- A network environment in which every probe throws, so every probe
resolves to `valid: false`. -/
def deadEnv : Str → FetchOutcome := fun _ => .netError

/-- C6 counterexample: for an item whose probe resolved `valid: false`
(network error), adding the same canonical URL twice leaves the session
registry empty — the size increases by zero, not by exactly one as the
claim states for every media item. -/
theorem add_twice_size_counterexample :
    regSize (addMediaUrl cexDeriver deadEnv
      (addMediaUrl cexDeriver deadEnv ([], []) 1
        "http://example.com/a.mp4".toList)
      1 "http://example.com/a.mp4".toList).2 1 = 0 ∧
    regSize (addMediaUrl cexDeriver deadEnv
      (addMediaUrl cexDeriver deadEnv ([], []) 1
        "http://example.com/a.mp4".toList)
      1 "http://example.com/a.mp4".toList).2 1 ≠ 1 := by
  constructor <;> decide

/-- C6 amended: re-adding the same canonical URL is a complete no-op (the
whole composite — probe cache and registry — is idempotent), and one add
grows the session's registry by exactly one entry when the item resolved to
valid media and its canonical URL was not yet present, and by zero
otherwise. -/
theorem addMediaUrl_idempotent (deriveF : Str → Option Str → Option Str → Str)
    (env : Str → FetchOutcome) (st : Cache × Registry) (tab : Int)
    (url : Str) :
    addMediaUrl deriveF env (addMediaUrl deriveF env st tab url) tab url =
      addMediaUrl deriveF env st tab url ∧
    regSize (addMediaUrl deriveF env st tab url).2 tab =
      regSize st.2 tab +
        (if (getMediaDetails deriveF env st.1 url).1.validMedia = true ∧
            entriesHas ((regGet st.2 tab).getD [])
              (getMediaDetails deriveF env st.1 url).1.url = false
         then 1 else 0) := by
  obtain ⟨cache0, reg0⟩ := st
  have hstable := getMediaDetails_stable deriveF env cache0 url
  cases hvm : (getMediaDetails deriveF env cache0 url).1.validMedia with
  | false =>
    constructor <;> simp [addMediaUrl, hstable, hvm, regSize]
  | true =>
    cases hhas : entriesHas ((regGet reg0 tab).getD [])
        (getMediaDetails deriveF env cache0 url).1.url with
    | true =>
      constructor <;> simp [addMediaUrl, hstable, hvm, hhas, regSize]
    | false =>
      constructor <;>
        simp [addMediaUrl, hstable, hvm, hhas, regSize, regGet_regSet_self,
          entriesHas_append_self]

/-! ## Claim C2: single-flight probe cache -/

lemma hasClear_cons_fetch {v : Str} {rest : List CacheOp}
    (h : hasClear (CacheOp.fetchOp v :: rest) = false) :
    hasClear rest = false := h

/-- Once a URL is cached, a clear-free trace issues no probe for it. -/
lemma probesFor_cached (env : Str → FetchOutcome) (u : Str)
    (ops : List CacheOp) (hnc : hasClear ops = false) :
    ∀ st : Cache, cacheGet st u ≠ none → probesFor env st u ops = 0 := by
  induction ops with
  | nil => intro st _; rfl
  | cons op rest ih =>
    intro st hst
    cases op with
    | clearOp => simp [hasClear] at hnc
    | fetchOp v =>
      have hnc' : hasClear rest = false := hasClear_cons_fetch hnc
      obtain ⟨r, hr⟩ := Option.ne_none_iff_exists'.mp hst
      unfold probesFor
      by_cases hv : v = u
      · subst hv
        simp [fetchMediaHeaders, cacheStep, hr, ih hnc' st hst]
      · cases hcv : cacheGet st v with
        | some rv =>
          simp [fetchMediaHeaders, cacheStep, hcv, hv]
          exact ih hnc' st hst
        | none =>
          simp [fetchMediaHeaders, cacheStep, hcv, hv]
          apply ih hnc'
          rw [cacheGet_append, hr]
          simp

/-- In a clear-free trace, each URL is probed at most once, from any
starting cache. -/
lemma probesFor_le_one (env : Str → FetchOutcome) (u : Str)
    (ops : List CacheOp) (hnc : hasClear ops = false) :
    ∀ st : Cache, probesFor env st u ops ≤ 1 := by
  induction ops with
  | nil => intro st; exact Nat.zero_le 1
  | cons op rest ih =>
    intro st
    cases op with
    | clearOp => simp [hasClear] at hnc
    | fetchOp v =>
      have hnc' : hasClear rest = false := hasClear_cons_fetch hnc
      unfold probesFor
      by_cases hv : v = u
      · subst hv
        cases hr : cacheGet st v with
        | some r => simp [fetchMediaHeaders, cacheStep, hr, ih hnc' st]
        | none =>
          have hz : probesFor env (cacheStep env st (CacheOp.fetchOp v)) v
              rest = 0 := by
            apply probesFor_cached env v rest hnc'
            simp [cacheStep, fetchMediaHeaders, hr]
            rw [cacheGet_append, hr]
            simp
          simp [fetchMediaHeaders, hr, hz]
      · simp [hv]
        exact ih hnc' _

/-- In a clear-free trace whose starting cache holds nothing stale for `u`,
every caller receives the settled value of the unique probe of `u`. -/
lemma resultsFor_const (env : Str → FetchOutcome) (u : Str)
    (ops : List CacheOp) (hnc : hasClear ops = false) :
    ∀ st : Cache,
      (cacheGet st u = none ∨ cacheGet st u = some (probeSettle (env u))) →
      ∀ r ∈ resultsFor env st u ops, r = probeSettle (env u) := by
  induction ops with
  | nil => intro st _ r hr; simp [resultsFor] at hr
  | cons op rest ih =>
    intro st hst r hr
    cases op with
    | clearOp => simp [hasClear] at hnc
    | fetchOp v =>
      have hnc' : hasClear rest = false := hasClear_cons_fetch hnc
      unfold resultsFor at hr
      rw [List.mem_append] at hr
      rcases hr with hr | hr
      · by_cases hv : v = u
        · subst hv
          rcases hst with hst | hst <;>
            simp [fetchMediaHeaders, hst] at hr <;> simp [hr]
        · simp [hv] at hr
      · refine ih hnc' _ ?_ r hr
        by_cases hv : v = u
        · subst hv
          rcases hst with hst | hst
          · right
            simp [cacheStep, fetchMediaHeaders, hst]
            rw [cacheGet_append, hst]
            simp
          · right
            simp [cacheStep, fetchMediaHeaders, hst]
        · cases hcv : cacheGet st v with
          | some rv => simpa [cacheStep, fetchMediaHeaders, hcv] using hst
          | none =>
            rcases hst with hst | hst
            · left
              simp [cacheStep, fetchMediaHeaders, hcv]
              rw [cacheGet_append, hst]
              simp [hv]
            · right
              simp [cacheStep, fetchMediaHeaders, hcv]
              rw [cacheGet_append, hst]

/-- C2 counterexample: the first probe of a URL resolves (and caches)
`valid: false`; after the global `clearUrls` cache clear, fetching the same
URL probes the network a second time — two probes in one process lifetime,
refuting the claim that a cached result is never re-fetched for the
lifetime of the process. -/
theorem probe_refetched_after_clear_counterexample :
    (fetchMediaHeaders deadEnv
      (runCacheOps deadEnv [] [CacheOp.fetchOp "http://example.com/a.mp4".toList])
      "http://example.com/a.mp4".toList).1.valid = false ∧
    probesFor deadEnv [] "http://example.com/a.mp4".toList
      [CacheOp.fetchOp "http://example.com/a.mp4".toList, CacheOp.clearOp,
       CacheOp.fetchOp "http://example.com/a.mp4".toList] = 2 := by
  constructor <;> decide

/-- C2 amended: in any process run without an explicit cache clear, at most
one underlying network probe is issued per URL — the first call stores the
in-flight promise, every later call (including ones arriving while the
probe is outstanding) receives the same settled `ProbeResult`, and a cached
result (including a cached `valid: false`) is never re-fetched until an
explicit cache clear. -/
theorem probe_single_flight (env : Str → FetchOutcome) (u : Str)
    (ops : List CacheOp) (hnc : hasClear ops = false) :
    probesFor env [] u ops ≤ 1 ∧
    ∀ r ∈ resultsFor env [] u ops, r = probeSettle (env u) :=
  ⟨probesFor_le_one env u ops hnc [],
   resultsFor_const env u ops hnc [] (Or.inl rfl)⟩

theorem probe_single_flight_witness :
    probesFor deadEnv [] "http://example.com/w2.mp4".toList
      [CacheOp.fetchOp "http://example.com/w2.mp4".toList,
       CacheOp.fetchOp "http://example.com/w2.mp4".toList] ≤ 1 ∧
    ∀ r ∈ resultsFor deadEnv [] "http://example.com/w2.mp4".toList
      [CacheOp.fetchOp "http://example.com/w2.mp4".toList,
       CacheOp.fetchOp "http://example.com/w2.mp4".toList],
      r = probeSettle (deadEnv "http://example.com/w2.mp4".toList) :=
  probe_single_flight deadEnv "http://example.com/w2.mp4".toList
    [CacheOp.fetchOp "http://example.com/w2.mp4".toList,
     CacheOp.fetchOp "http://example.com/w2.mp4".toList] (by decide)

/-! ## Claim C10: registry purity invariant -/

lemma regGet_mem {reg : Registry} {t : Int} {es : TabEntries}
    (h : regGet reg t = some es) : (t, es) ∈ reg := by
  induction reg with
  | nil => simp [regGet] at h
  | cons p rest ih =>
    obtain ⟨k, v⟩ := p
    by_cases hk : k = t
    · subst hk
      simp [regGet] at h
      simp [h]
    · simp [regGet, hk] at h
      simp [ih h]

lemma regSet_mem {reg : Registry} {t : Int} {es : TabEntries}
    {p : Int × TabEntries} (h : p ∈ regSet reg t es) :
    p = (t, es) ∨ p ∈ reg := by
  induction reg with
  | nil => simpa [regSet] using h
  | cons q rest ih =>
    obtain ⟨k, v⟩ := q
    by_cases hk : k = t
    · subst hk
      simp [regSet] at h
      rcases h with h | h
      · exact Or.inl h
      · exact Or.inr (by simp [h])
    · simp [regSet, hk] at h
      rcases h with h | h
      · exact Or.inr (by simp [h])
      · rcases ih h with h' | h'
        · exact Or.inl h'
        · exact Or.inr (by simp [h'])

lemma regDelete_mem {reg : Registry} {t : Int} {p : Int × TabEntries}
    (h : p ∈ regDelete reg t) : p ∈ reg := by
  induction reg with
  | nil => simp [regDelete] at h
  | cons q rest ih =>
    obtain ⟨k, v⟩ := q
    by_cases hk : k = t
    · subst hk
      simp [regDelete] at h
      simp [h]
    · simp [regDelete, hk] at h
      rcases h with h | h
      · simp [h]
      · simp [ih h]

/-- Every stored entry is valid media keyed by its own canonical URL. -/
def RegOK (reg : Registry) : Prop :=
  ∀ p ∈ reg, ∀ kv ∈ p.2, kv.2.validMedia = true ∧ kv.2.url = kv.1

lemma addMediaUrl_RegOK (deriveF : Str → Option Str → Option Str → Str)
    (env : Str → FetchOutcome) (st : Cache × Registry) (tab : Int)
    (url : Str) (h : RegOK st.2) :
    RegOK (addMediaUrl deriveF env st tab url).2 := by
  unfold addMediaUrl
  cases hvm : (getMediaDetails deriveF env st.1 url).1.validMedia with
  | false => simp only [hvm, Bool.not_false, if_pos]; exact h
  | true =>
    cases hhas : entriesHas ((regGet st.2 tab).getD [])
        (getMediaDetails deriveF env st.1 url).1.url with
    | true => simpa [hvm, hhas] using h
    | false =>
      simp only [hvm, hhas, Bool.not_true, Bool.false_eq_true, if_false,
        if_neg]
      intro p hp kv hkv
      rcases regSet_mem hp with hp' | hp'
      · subst hp'
        simp only [List.mem_append, List.mem_singleton] at hkv
        rcases hkv with hkv | hkv
        · cases hr : regGet st.2 tab with
          | none => rw [hr] at hkv; simp at hkv
          | some es =>
            rw [hr] at hkv
            exact h _ (regGet_mem hr) kv hkv
        · subst hkv
          exact ⟨hvm, rfl⟩
      · exact h _ hp' kv hkv

lemma runRegOps_RegOK (deriveF : Str → Option Str → Option Str → Str)
    (env : Str → FetchOutcome) (ops : List RegOp) :
    ∀ st : Cache × Registry, RegOK st.2 →
      RegOK (runRegOps deriveF env st ops).2 := by
  induction ops with
  | nil => intro st h; exact h
  | cons op rest ih =>
    intro st h
    cases op with
    | addOp t u => exact ih _ (addMediaUrl_RegOK deriveF env st t u h)
    | clearTabOp t =>
      refine ih _ ?_
      intro p hp kv hkv
      exact h p (regDelete_mem hp) kv hkv
    | clearAllOp =>
      refine ih _ ?_
      intro p hp kv hkv
      simp [regStep] at hp

/-- C10: in any process run starting from the empty state, every media item
stored in the per-session registry has `validMedia = true` and sits under a
key equal to its own canonical `url` field; an item whose probe resolved
invalid is never inserted by any operation. -/
theorem registry_purity (deriveF : Str → Option Str → Option Str → Str)
    (env : Str → FetchOutcome) (ops : List RegOp) (tab : Int)
    (es : TabEntries) (k : Str) (item : MediaItem)
    (h1 : regGet (runRegOps deriveF env ([], []) ops).2 tab = some es)
    (h2 : (k, item) ∈ es) :
    item.validMedia = true ∧ item.url = k :=
  runRegOps_RegOK deriveF env ops ([], []) (by intro p hp kv hkv; simp at hp)
    _ (regGet_mem h1) (k, item) h2

theorem registry_purity_witness :
    ({ url := "http://example.com/v.mp4".toList
       filename := "http://example.com/v.mp4".toList
       validMedia := true
       isManifest := false } : MediaItem).validMedia = true ∧
    ({ url := "http://example.com/v.mp4".toList
       filename := "http://example.com/v.mp4".toList
       validMedia := true
       isManifest := false } : MediaItem).url =
      "http://example.com/v.mp4".toList :=
  registry_purity cexDeriver fragEnv
    [RegOp.addOp 1 "http://example.com/v.mp4".toList] 1
    [("http://example.com/v.mp4".toList,
      { url := "http://example.com/v.mp4".toList
        filename := "http://example.com/v.mp4".toList
        validMedia := true
        isManifest := false })]
    "http://example.com/v.mp4".toList
    { url := "http://example.com/v.mp4".toList
      filename := "http://example.com/v.mp4".toList
      validMedia := true
      isManifest := false }
    (by decide) (by decide)

/-! ## Claims C4/C5: the canonicalizer -/

lemma char_toNat_inj {a b : Char} (h : a.toNat = b.toNat) : a = b := by
  have := congrArg Char.ofNat h
  rwa [Char.ofNat_toNat, Char.ofNat_toNat] at this

lemma strCmp_self (a : Str) : strCmp a a = .eq := by
  induction a with
  | nil => rfl
  | cons x xs ih => simp [strCmp, ih]

lemma strCmp_eq_iff {a b : Str} : strCmp a b = .eq ↔ a = b := by
  induction a generalizing b with
  | nil => cases b <;> simp [strCmp]
  | cons x xs ih =>
    cases b with
    | nil => simp [strCmp]
    | cons y ys =>
      by_cases h1 : x.toNat < y.toNat
      · simp [strCmp, h1]
        intro hx
        subst hx
        omega
      · by_cases h2 : y.toNat < x.toNat
        · simp [strCmp, h1, h2]
          intro hx
          subst hx
          omega
        · have hxy : x = y := char_toNat_inj (by omega)
          subst hxy
          simp [strCmp, ih]

lemma strCmp_swap (a b : Str) : strCmp a b = (strCmp b a).swap := by
  induction a generalizing b with
  | nil => cases b <;> simp [strCmp, Ordering.swap]
  | cons x xs ih =>
    cases b with
    | nil => simp [strCmp, Ordering.swap]
    | cons y ys =>
      by_cases h1 : x.toNat < y.toNat
      · have h2 : ¬ y.toNat < x.toNat := by omega
        simp [strCmp, h1, h2, Ordering.swap]
      · by_cases h2 : y.toNat < x.toNat
        · simp [strCmp, h1, h2, Ordering.swap]
        · simp [strCmp, h1, h2, ih]

lemma strCmp_lt_trans : ∀ {a b c : Str},
    strCmp a b = .lt → strCmp b c = .lt → strCmp a c = .lt := by
  intro a
  induction a with
  | nil =>
    intro b c h1 h2
    cases b with
    | nil => exact h2
    | cons y ys =>
      cases c with
      | nil => simp [strCmp] at h2
      | cons z cs => simp [strCmp]
  | cons x xs ih =>
    intro b c h1 h2
    cases b with
    | nil => simp [strCmp] at h1
    | cons y ys =>
      cases c with
      | nil => simp [strCmp] at h2
      | cons z cs =>
        simp only [strCmp] at h1 h2 ⊢
        split_ifs at h1 h2 ⊢ <;> try omega
        all_goals first
          | rfl
          | (exact h1) | (exact h2)
          | (exact ih h1 h2)

instance : IsTotal (Str × Str) pairRel := by
  constructor
  intro p q
  unfold pairRel pairLe
  cases hk : strCmp p.1 q.1 with
  | lt => exact Or.inl rfl
  | gt =>
    have : strCmp q.1 p.1 = .lt := by
      have hs := strCmp_swap q.1 p.1
      rw [hk] at hs
      exact hs
    right
    rw [this]
  | eq =>
    have hk' : strCmp q.1 p.1 = .eq := by
      have hs := strCmp_swap q.1 p.1
      rw [hk] at hs
      exact hs
    cases hv : strCmp p.2 q.2 with
    | gt =>
      have : strCmp q.2 p.2 = .lt := by
        have hs := strCmp_swap q.2 p.2
        rw [hv] at hs
        exact hs
      right
      rw [hk', this]
      simp
    | lt => left; rfl
    | eq => left; rfl

instance : IsTrans (Str × Str) pairRel := by
  constructor
  intro p q r hpq hqr
  unfold pairRel pairLe at *
  cases hk1 : strCmp p.1 q.1 with
  | gt => rw [hk1] at hpq; exact absurd hpq (by simp)
  | lt =>
    cases hk2 : strCmp q.1 r.1 with
    | gt => rw [hk2] at hqr; exact absurd hqr (by simp)
    | lt => rw [strCmp_lt_trans hk1 hk2]
    | eq =>
      have : q.1 = r.1 := strCmp_eq_iff.mp hk2
      rw [← this, hk1]
  | eq =>
    have he1 : p.1 = q.1 := strCmp_eq_iff.mp hk1
    cases hk2 : strCmp q.1 r.1 with
    | gt => rw [hk2] at hqr; exact absurd hqr (by simp)
    | lt => rw [he1, hk2]
    | eq =>
      have he2 : q.1 = r.1 := strCmp_eq_iff.mp hk2
      rw [he1, he2, strCmp_self]
      rw [hk1] at hpq
      rw [hk2] at hqr
      simp only at hpq hqr ⊢
      -- values: strCmp p.2 q.2 ≠ gt, strCmp q.2 r.2 ≠ gt ⊢ strCmp p.2 r.2 ≠ gt
      cases hv1 : strCmp p.2 q.2 with
      | gt => rw [hv1] at hpq; exact absurd hpq (by simp)
      | lt =>
        cases hv2 : strCmp q.2 r.2 with
        | gt => rw [hv2] at hqr; exact absurd hqr (by simp)
        | lt => simp [strCmp_lt_trans hv1 hv2]
        | eq =>
          have : q.2 = r.2 := strCmp_eq_iff.mp hv2
          rw [← this, hv1]
          simp
      | eq =>
        have : p.2 = q.2 := strCmp_eq_iff.mp hv1
        rw [this]
        exact hqr

lemma splitFirst_eq_some {c : Char} : ∀ {s a b : Str},
    splitFirst c s = some (a, b) → c ∉ a ∧ s = a ++ c :: b := by
  intro s
  induction s with
  | nil => intro a b h; simp [splitFirst] at h
  | cons x xs ih =>
    intro a b h
    by_cases hx : x = c
    · subst hx
      simp [splitFirst] at h
      obtain ⟨ha, hb⟩ := h
      subst ha; subst hb
      simp
    · cases hs : splitFirst c xs with
      | none => simp [splitFirst, hx, hs] at h
      | some ab =>
        obtain ⟨a', b'⟩ := ab
        simp [splitFirst, hx, hs] at h
        obtain ⟨ha, hb⟩ := h
        obtain ⟨hno, heq⟩ := ih hs
        subst ha; subst hb
        constructor
        · simp [hno, hx]
          exact fun hc => absurd hc.symm hx
        · simp [heq]

lemma splitFirst_eq_none {c : Char} {s : Str} :
    splitFirst c s = none ↔ c ∉ s := by
  induction s with
  | nil => simp [splitFirst]
  | cons x xs ih =>
    by_cases h : x = c
    · subst h
      simp [splitFirst]
    · cases hs : splitFirst c xs with
      | none =>
        rw [hs] at ih
        simp [splitFirst, h, hs, Ne.symm h, ih.mp rfl]
      | some ab =>
        obtain ⟨a, b⟩ := ab
        obtain ⟨hna, heq⟩ := splitFirst_eq_some hs
        simp [splitFirst, h, hs, Ne.symm h]
        rw [heq]
        exact List.mem_append.mpr (Or.inr (List.mem_cons_self c b))

lemma splitFirst_append {c : Char} {a : Str} (b : Str) (h : c ∉ a) :
    splitFirst c (a ++ c :: b) = some (a, b) := by
  induction a with
  | nil => simp [splitFirst]
  | cons x a ih =>
    have hx : x ≠ c := by
      intro hx; exact h (hx ▸ List.mem_cons_self x a)
    have h' : c ∉ a := fun hc => h (List.mem_cons_of_mem x hc)
    simp [splitFirst, hx, ih h']

lemma splitAll_ne_nil (c : Char) (s : Str) : splitAll c s ≠ [] := by
  cases s with
  | nil => simp [splitAll]
  | cons x xs =>
    by_cases h : x = c
    · simp [splitAll, h]
    · cases hs : splitAll c xs with
      | nil => simp [splitAll, h, hs]
      | cons p t => simp [splitAll, h, hs]

lemma mem_splitAll {c : Char} : ∀ {s p : Str}, p ∈ splitAll c s →
    c ∉ p ∧ ∀ x ∈ p, x ∈ s := by
  intro s
  induction s with
  | nil =>
    intro p hp
    simp [splitAll] at hp
    subst hp
    simp
  | cons y xs ih =>
    intro p hp
    by_cases h : y = c
    · subst h
      simp [splitAll] at hp
      rcases hp with hp | hp
      · subst hp; simp
      · obtain ⟨hc, hsub⟩ := ih hp
        exact ⟨hc, fun x hx => List.mem_cons_of_mem _ (hsub x hx)⟩
    · cases hs : splitAll c xs with
      | nil => exact absurd hs (splitAll_ne_nil c xs)
      | cons q t =>
        rw [splitAll, if_neg h, hs] at hp
        have hq : q ∈ splitAll c xs := by rw [hs]; exact List.mem_cons_self q t
        rcases List.mem_cons.mp hp with hp' | hp'
        · subst hp'
          obtain ⟨hc, hsub⟩ := ih hq
          refine ⟨?_, ?_⟩
          · intro hcm
            rcases List.mem_cons.mp hcm with hcm | hcm
            · exact h hcm.symm
            · exact hc hcm
          · intro x hx
            rcases List.mem_cons.mp hx with hx | hx
            · subst hx; exact List.mem_cons_self x xs
            · exact List.mem_cons_of_mem _ (hsub x hx)
        · have : p ∈ splitAll c xs := by rw [hs]; exact List.mem_cons_of_mem q hp'
          obtain ⟨hc, hsub⟩ := ih this
          exact ⟨hc, fun x hx => List.mem_cons_of_mem _ (hsub x hx)⟩

lemma splitAll_of_not_mem {c : Char} {s : Str} (h : c ∉ s) :
    splitAll c s = [s] := by
  induction s with
  | nil => rfl
  | cons x xs ih =>
    have hx : x ≠ c := fun hc => h (hc ▸ List.mem_cons_self x xs)
    have h' : c ∉ xs := fun hc => h (List.mem_cons_of_mem x hc)
    rw [splitAll, if_neg hx, ih h']

lemma splitAll_append_cons {c : Char} {p : Str} (t : Str) (h : c ∉ p) :
    splitAll c (p ++ c :: t) = p :: splitAll c t := by
  induction p with
  | nil => simp [splitAll]
  | cons x p ih =>
    have hx : x ≠ c := fun hc => h (hc ▸ List.mem_cons_self x p)
    have h' : c ∉ p := fun hc => h (List.mem_cons_of_mem x hc)
    rw [List.cons_append, splitAll, if_neg hx, ih h']

/-- Properties of the entries `parseQuery` produces: no `&` anywhere, no
`=` in keys, and every character comes from the query string. -/
lemma parseQuery_props {q : Str} :
    ∀ kv ∈ parseQuery q, '&' ∉ kv.1 ∧ '&' ∉ kv.2 ∧ '=' ∉ kv.1 ∧
      (∀ x ∈ kv.1, x ∈ q) ∧ (∀ x ∈ kv.2, x ∈ q) := by
  intro kv hkv
  unfold parseQuery at hkv
  rw [List.mem_map] at hkv
  obtain ⟨p, hp, hpp⟩ := hkv
  rw [List.mem_filter] at hp
  obtain ⟨hp, -⟩ := hp
  obtain ⟨hamp, hsub⟩ := mem_splitAll hp
  unfold parsePair at hpp
  cases hsp : splitFirst '=' p with
  | none =>
    rw [hsp] at hpp
    subst hpp
    exact ⟨hamp, by simp, splitFirst_eq_none.mp hsp, hsub, by simp⟩
  | some ab =>
    obtain ⟨k, v⟩ := ab
    rw [hsp] at hpp
    subst hpp
    obtain ⟨hek, heq⟩ := splitFirst_eq_some hsp
    have hk : ∀ x ∈ k, x ∈ p := by
      intro x hx
      rw [heq]
      exact List.mem_append.mpr (Or.inl hx)
    have hv : ∀ x ∈ v, x ∈ p := by
      intro x hx
      rw [heq]
      exact List.mem_append.mpr (Or.inr (List.mem_cons_of_mem _ hx))
    exact ⟨fun hx => hamp (hk _ hx), fun hx => hamp (hv _ hx), hek,
      fun x hx => hsub x (hk x hx), fun x hx => hsub x (hv x hx)⟩

lemma mem_joinQuery : ∀ {ps : List (Str × Str)} {x : Char},
    x ∈ joinQuery ps →
      x = '&' ∨ x = '=' ∨ ∃ kv ∈ ps, x ∈ kv.1 ∨ x ∈ kv.2 := by
  intro ps
  induction ps with
  | nil => intro x hx; simp [joinQuery] at hx
  | cons kv rest ih =>
    intro x hx
    cases rest with
    | nil =>
      simp only [joinQuery, pairStr] at hx
      rcases List.mem_append.mp hx with hx | hx
      · exact Or.inr (Or.inr ⟨kv, by simp, Or.inl hx⟩)
      · rcases List.mem_cons.mp hx with hx | hx
        · exact Or.inr (Or.inl hx)
        · exact Or.inr (Or.inr ⟨kv, by simp, Or.inr hx⟩)
    | cons kv2 rest2 =>
      simp only [joinQuery, pairStr] at hx
      rcases List.mem_append.mp hx with hx | hx
      · rcases List.mem_append.mp hx with hx | hx
        · exact Or.inr (Or.inr ⟨kv, by simp, Or.inl hx⟩)
        · rcases List.mem_cons.mp hx with hx | hx
          · exact Or.inr (Or.inl hx)
          · exact Or.inr (Or.inr ⟨kv, by simp, Or.inr hx⟩)
      · rcases List.mem_cons.mp hx with hx | hx
        · exact Or.inl hx
        · rcases ih hx with h | h | ⟨kv', hkv', h⟩
          · exact Or.inl h
          · exact Or.inr (Or.inl h)
          · exact Or.inr (Or.inr ⟨kv', List.mem_cons_of_mem _ hkv', h⟩)

lemma pairStr_ne_nil (kv : Str × Str) : pairStr kv ≠ [] := by
  unfold pairStr
  intro h
  have := congrArg List.length h
  simp at this

lemma amp_not_mem_pairStr {kv : Str × Str} (h1 : '&' ∉ kv.1)
    (h2 : '&' ∉ kv.2) : '&' ∉ pairStr kv := by
  unfold pairStr
  intro h
  rcases List.mem_append.mp h with h | h
  · exact h1 h
  · rcases List.mem_cons.mp h with h | h
    · exact absurd h (by decide)
    · exact h2 h

lemma parsePair_pairStr {kv : Str × Str} (h : '=' ∉ kv.1) :
    parsePair (pairStr kv) = kv := by
  unfold parsePair pairStr
  rw [splitFirst_append kv.2 h]

lemma parseQuery_joinQuery : ∀ {ps : List (Str × Str)},
    (∀ kv ∈ ps, '&' ∉ kv.1 ∧ '&' ∉ kv.2 ∧ '=' ∉ kv.1) →
    parseQuery (joinQuery ps) = ps := by
  intro ps
  induction ps with
  | nil => intro _; rfl
  | cons kv rest ih =>
    intro h
    obtain ⟨h1, h2, h3⟩ := h kv (List.mem_cons_self kv rest)
    have hamp : '&' ∉ pairStr kv := amp_not_mem_pairStr h1 h2
    cases rest with
    | nil =>
      unfold parseQuery joinQuery
      rw [splitAll_of_not_mem hamp]
      simp [pairStr_ne_nil kv, parsePair_pairStr h3]
    | cons kv2 rest2 =>
      have hrest := ih (fun kv' hkv' => h kv' (List.mem_cons_of_mem _ hkv'))
      unfold parseQuery joinQuery
      rw [splitAll_append_cons _ hamp]
      simp only [List.filter_cons]
      rw [if_pos (by simpa using pairStr_ne_nil kv)]
      simp only [List.map_cons]
      rw [parsePair_pairStr h3]
      congr 1

/-- Well-formedness of a query entry for re-serialization. -/
def UrlPairOK (kv : Str × Str) : Prop :=
  '&' ∉ kv.1 ∧ '&' ∉ kv.2 ∧ '=' ∉ kv.1 ∧ '#' ∉ kv.1 ∧ '#' ∉ kv.2

lemma parseCut2 {pre b : Str} {ps : List (Str × Str)} (hpre : '#' ∉ pre)
    (hfst : (match splitFirst '?' pre with
             | none => (pre, ([] : List (Str × Str)))
             | some (b, q) => (b, parseQuery q)).1 = b)
    (hsnd : (match splitFirst '?' pre with
             | none => (pre, ([] : List (Str × Str)))
             | some (b, q) => (b, parseQuery q)).2 = ps) :
    '?' ∉ b ∧ '#' ∉ b ∧ ∀ kv ∈ ps, UrlPairOK kv := by
  cases h2 : splitFirst '?' pre with
  | none =>
    rw [h2] at hfst hsnd
    simp at hfst hsnd
    subst hfst
    refine ⟨splitFirst_eq_none.mp h2, hpre, ?_⟩
    subst hsnd
    simp
  | some bq =>
    obtain ⟨b', q⟩ := bq
    rw [h2] at hfst hsnd
    simp at hfst hsnd
    subst hfst
    subst hsnd
    obtain ⟨hq', hseq⟩ := splitFirst_eq_some h2
    have hqsub : ∀ x ∈ q, x ∈ pre := by
      intro x hx
      rw [hseq]
      exact List.mem_append.mpr (Or.inr (List.mem_cons_of_mem _ hx))
    refine ⟨hq', ?_, ?_⟩
    · intro hx
      refine hpre ?_
      rw [hseq]
      exact List.mem_append.mpr (Or.inl hx)
    · intro kv hkv
      obtain ⟨h1, h2', h3, h4, h5⟩ := parseQuery_props kv hkv
      exact ⟨h1, h2', h3,
        fun hx => hpre (hqsub _ (h4 _ hx)),
        fun hx => hpre (hqsub _ (h5 _ hx))⟩

lemma parseUrl_some {s b : Str} {ps : List (Str × Str)} {hs : Option Str}
    (hp : parseUrl s = some (b, ps, hs)) :
    hasScheme b = true ∧ '?' ∉ b ∧ '#' ∉ b ∧ ∀ kv ∈ ps, UrlPairOK kv := by
  unfold parseUrl at hp
  cases h1 : splitFirst '#' s with
  | none =>
    rw [h1] at hp
    simp at hp
    obtain ⟨hsch, hfst, hsnd, hhs⟩ := hp
    have hpre : '#' ∉ s := splitFirst_eq_none.mp h1
    obtain ⟨hq, hh, hpairs⟩ := parseCut2 hpre hfst hsnd
    rw [hfst] at hsch
    exact ⟨hsch, hq, hh, hpairs⟩
  | some ph =>
    obtain ⟨pre, hh0⟩ := ph
    rw [h1] at hp
    simp at hp
    obtain ⟨hsch, hfst, hsnd, hhs⟩ := hp
    obtain ⟨hpre, hseq⟩ := splitFirst_eq_some h1
    obtain ⟨hq, hhb, hpairs⟩ := parseCut2 hpre hfst hsnd
    rw [hfst] at hsch
    exact ⟨hsch, hq, hhb, hpairs⟩

lemma parseUrl_serializeUrl {b : Str} {ps : List (Str × Str)} {h : Option Str}
    (hb : hasScheme b = true) (hq : '?' ∉ b) (hh : '#' ∉ b)
    (hps : ∀ kv ∈ ps, UrlPairOK kv) :
    parseUrl (serializeUrl b ps h) = some (b, ps, h) := by
  have hqpart : '#' ∉ (if ps = [] then ([] : Str) else '?' :: joinQuery ps) := by
    by_cases he : ps = []
    · simp [he]
    · rw [if_neg he]
      intro hx
      rcases List.mem_cons.mp hx with hx | hx
      · exact absurd hx (by decide)
      · rcases mem_joinQuery hx with h' | h' | ⟨kv, hkv, h'⟩
        · exact absurd h' (by decide)
        · exact absurd h' (by decide)
        · obtain ⟨-, -, -, h4, h5⟩ := hps kv hkv
          rcases h' with h' | h'
          · exact h4 h'
          · exact h5 h'
  have hprefix : '#' ∉ b ++ (if ps = [] then ([] : Str) else '?' :: joinQuery ps) := by
    intro hx
    rcases List.mem_append.mp hx with hx | hx
    · exact hh hx
    · exact hqpart hx
  have hmatch : (match splitFirst '?'
        (b ++ (if ps = [] then ([] : Str) else '?' :: joinQuery ps)) with
      | none => (b ++ (if ps = [] then ([] : Str) else '?' :: joinQuery ps),
                 ([] : List (Str × Str)))
      | some (b', q) => (b', parseQuery q)) = (b, ps) := by
    by_cases he : ps = []
    · subst he
      have hz : (if ([] : List (Str × Str)) = [] then ([] : Str)
          else '?' :: joinQuery []) = [] := rfl
      rw [hz, List.append_nil, splitFirst_eq_none.mpr hq]
    · rw [if_neg he]
      rw [splitFirst_append (joinQuery ps) hq]
      have hpj := parseQuery_joinQuery
        (fun kv hkv => ⟨(hps kv hkv).1, (hps kv hkv).2.1, (hps kv hkv).2.2.1⟩)
      show (b, parseQuery (joinQuery ps)) = (b, ps)
      rw [hpj]
  unfold serializeUrl parseUrl
  cases h with
  | none =>
    simp only [List.append_nil]
    simp only [splitFirst_eq_none.mpr hprefix]
    rw [hmatch]
    simp [hb]
  | some hs0 =>
    simp only [splitFirst_append hs0 hprefix]
    rw [hmatch]
    simp [hb]

/-- C4: URL canonicalization is idempotent — applying `modifyParams` to its
own output returns the output unchanged, including the parse-failure case
where the original string is passed through. -/
theorem modifyParams_idempotent (s : Str) :
    modifyParams (modifyParams s) = modifyParams s := by
  cases hp : parseUrl s with
  | none => simp [modifyParams, hp]
  | some bph =>
    obtain ⟨b, ps, h⟩ := bph
    obtain ⟨hb, hq, hh, hps⟩ := parseUrl_some hp
    have hmem : ∀ kv ∈ List.insertionSort pairRel
        (ps.filter (fun kv => keptKey kv.1)), kv ∈ ps := by
      intro kv hkv
      rw [List.mem_insertionSort, List.mem_filter] at hkv
      exact hkv.1
    have hok : ∀ kv ∈ List.insertionSort pairRel
        (ps.filter (fun kv => keptKey kv.1)), UrlPairOK kv :=
      fun kv hkv => hps kv (hmem kv hkv)
    have hround := parseUrl_serializeUrl hb hq hh hok (h := h)
    have hfilter : (List.insertionSort pairRel
        (ps.filter (fun kv => keptKey kv.1))).filter
          (fun kv => keptKey kv.1) =
        List.insertionSort pairRel (ps.filter (fun kv => keptKey kv.1)) := by
      rw [List.filter_eq_self]
      intro kv hkv
      rw [List.mem_insertionSort, List.mem_filter] at hkv
      exact hkv.2
    have hsort2 : List.insertionSort pairRel (List.insertionSort pairRel
        (ps.filter (fun kv => keptKey kv.1))) =
        List.insertionSort pairRel (ps.filter (fun kv => keptKey kv.1)) :=
      List.Sorted.insertionSort_eq
        (List.sorted_insertionSort pairRel (ps.filter (fun kv => keptKey kv.1)))
    simp only [modifyParams, hp]
    simp only [hround]
    rw [hfilter, hsort2]

/-- C5: two parseable URLs that differ only in the values (or presence) of
their `bytestart`/`byteend` query parameters — same base, same fragment,
identical remaining parameter lists — canonicalize to the same string. -/
theorem modifyParams_byterange (u1 u2 b : Str) (ps1 ps2 : List (Str × Str))
    (hsh : Option Str)
    (h1 : parseUrl u1 = some (b, ps1, hsh))
    (h2 : parseUrl u2 = some (b, ps2, hsh))
    (heq : ps1.filter (fun kv => decide (kv.1 ≠ "bytestart".toList) &&
             decide (kv.1 ≠ "byteend".toList)) =
           ps2.filter (fun kv => decide (kv.1 ≠ "bytestart".toList) &&
             decide (kv.1 ≠ "byteend".toList))) :
    modifyParams u1 = modifyParams u2 := by
  have key : ∀ ps : List (Str × Str),
      ps.filter (fun kv => keptKey kv.1) =
        (ps.filter (fun kv => decide (kv.1 ≠ "bytestart".toList) &&
          decide (kv.1 ≠ "byteend".toList))).filter
          (fun kv => decide (kv.1 ≠ "_nc_cat".toList)) := by
    intro ps
    rw [List.filter_filter]
    refine List.filter_congr ?_
    intro kv _
    unfold keptKey
    exact Bool.and_comm _ _
  have hfeq : ps1.filter (fun kv => keptKey kv.1) =
      ps2.filter (fun kv => keptKey kv.1) := by
    rw [key ps1, key ps2, heq]
  simp only [modifyParams, h1, h2, hfeq]

theorem modifyParams_byterange_witness :
    modifyParams "http://a.com/v?bytestart=0&byteend=100&x=1".toList =
      modifyParams "http://a.com/v?bytestart=50&byteend=999&x=1".toList :=
  modifyParams_byterange _ _ "http://a.com/v".toList
    [("bytestart".toList, "0".toList), ("byteend".toList, "100".toList),
     ("x".toList, "1".toList)]
    [("bytestart".toList, "50".toList), ("byteend".toList, "999".toList),
     ("x".toList, "1".toList)]
    none (by decide) (by decide) (by decide)

end Nadecon
